import Mathlib

/-!
# mongo-cxx-odm: the BSON output stream buffer and the record/document mapper

Part 1 embeds `bson_mapper::bson_output_streambuf` (src/bson_mapper/bson_streambuf.cpp):
the member functions `overflow` and `insert` become pure functions from a framer state and
an incoming `int` to a `Step`, which carries the state left behind, the value returned or the
exception thrown, the views handed to `coll.insert_one`, and the stores made to the buffer.

Conventions of the embedding
* The collection is an external collaborator. `coll.insert_one(v)` either returns or throws;
  it is a parameter `sink : View → Bool` (`true`: returned, `false`: threw).
* A C++ exception leaves the object exactly as the statements executed before the `throw`
  left it; there is no handler in the source, so the state of a throwing step is the state
  at the throw.
* A store through `data` outside the allocation (or through a null `data`) is undefined
  behaviour in C++: from such a store on, the program has no defined result. The embedding
  records every store with the capacity of the buffer it targets, and `Step.defined` tells
  whether all stores of a call were in bounds. For a call that is not `defined` the fields of
  its `Step` only follow the text of the source (the out-of-range store is left out of the
  buffer contents); they are bookkeeping, not a result of the program.
-/

namespace bson_mapper

/-- The constant `BSON_MAX_SIZE` of libbson's bson.h: `(1U << 31) - 1`. -/
def BSON_MAX_SIZE : Nat := 2 ^ 31 - 1

/-- The value of `EOF` of cstdio. -/
def EOF : Int := -1

/-- The bound `std::numeric_limits<uint8_t>::max()`. -/
def UINT8_MAX : Int := 255

/-- Modelled from the spec: the members `bytes_read`, `len` and `data` are declared in
bson_streambuf.hpp, which is not among the sources. The spec gives the framer state as
`{bytes_consumed: uint32, declared_length: uint32 | unknown, buffer: owned byte array | absent}`:
both counters are unsigned 32-bit integers (arithmetic modulo `2 ^ 32`, initial value 0) and
`data` is either null (`none`) or an allocated array of bytes. -/
structure bson_output_streambuf where
  bytes_read : Nat
  len : Nat
  data : Option (List Nat)
deriving DecidableEq, Repr

/-- The state of a freshly constructed stream buffer, which is also the state written by the
completion branch of `insert`: `data = nullptr; bytes_read = 0; len = 0;`. -/
def empty : bson_output_streambuf := ⟨0, 0, none⟩

/-- The `bsoncxx::document::view v(data, len)` handed to `coll.insert_one`: a pointer
(`none` when it is null, otherwise the bytes of the array it points to) and a length. -/
structure View where
  data : Option (List Nat)
  len : Nat
deriving DecidableEq, Repr

/-- The three `throw` sites reachable from `overflow`. -/
inductive Failure where
  /-- The exception `std::invalid_argument("Character is out of bounds.")`. -/
  | out_of_bounds
  /-- The exception `std::invalid_argument("BSON document length is too large.")`. -/
  | too_large
  /-- An exception thrown by `coll.insert_one`. -/
  | insert_one
deriving DecidableEq, Repr

/-- How a call ends: it returns an `int`, or it throws. -/
inductive Outcome where
  | returned (v : Int)
  | threw (e : Failure)
deriving DecidableEq, Repr

/-- One store through `data`: the index written and the number of bytes of the array `data`
points to (`none` when `data` is null). -/
structure Store where
  index : Nat
  capacity : Option Nat
deriving DecidableEq, Repr

/-- A store is in bounds when it targets a present buffer below its allocated size. -/
def Store.in_bounds (w : Store) : Bool :=
  match w.capacity with
  | none => false
  | some c => decide (w.index < c)

/-- Everything observable of one call of `overflow` or `insert`. -/
structure Step where
  state : bson_output_streambuf
  outcome : Outcome
  sunk : List View
  stores : List Store
deriving DecidableEq, Repr

/-- A call is free of undefined behaviour when every store it makes through `data` targets
a present buffer at an index below its allocated size. -/
def Step.defined (o : Step) : Bool :=
  o.stores.all Store.in_bounds

/-- The shift count `8 * (bytes_read - 1)`, in unsigned 32-bit arithmetic. -/
def shift_count (bytes_read : Nat) : Nat :=
  (8 * ((bytes_read + (2 ^ 32 - 1)) % 2 ^ 32)) % 2 ^ 32

/-- The operand `ch << k` of `len |= ...` after its conversion from `int` to the unsigned
32-bit type of `len`: the low 32 bits of `ch * 2 ^ k` (no bit of it is left when `k ≥ 32`). -/
def shifted (ch : Int) (k : Nat) : Nat :=
  if k < 32 then ((ch * 2 ^ k) % 2 ^ 32).toNat else 0

/-- The statement `data[i] = v` on the contents of the buffer, for an index inside the
allocated array. The source stores unconditionally (line 69, and line 65 through `memcpy`):
when `data` is null or `i` is not below the size of the array the store is undefined
behaviour in the program. The contents are then left as they are, the store is recorded
with the capacity it missed (`store_at`, `allocate_stores`), and the call is not
`Step.defined`. -/
def poke (data : Option (List Nat)) (i v : Nat) : Option (List Nat) :=
  data.map (fun b => b.set i v)

/-- The record of the statement `data[i] = ...`. -/
def store_at (data : Option (List Nat)) (i : Nat) : Store :=
  ⟨i, data.map List.length⟩

/-- Byte `i` of the object representation of `len` on a little-endian machine. -/
def len_byte (len i : Nat) : Nat := (len / 2 ^ (8 * i)) % 256

/-- The statements `data = new uint8_t[len]; std::memcpy(data, &len, 4);`: a fresh array of
`len` bytes (its indeterminate contents read as 0) whose first four bytes receive the
little-endian bytes of `len`. When `len < 4` the source still copies 4 bytes, past the end
of the array (undefined behaviour): the stores that miss the array are recorded by
`allocate_stores` with the capacity `len` and are left out of the contents. -/
def allocate (len : Nat) : Option (List Nat) :=
  let d0 : Option (List Nat) := some (List.replicate len 0)
  poke (poke (poke (poke d0 0 (len_byte len 0)) 1 (len_byte len 1)) 2 (len_byte len 2))
    3 (len_byte len 3)

/-- The four stores made by `std::memcpy(data, &len, 4)` into the array of `len` bytes. -/
def allocate_stores (len : Nat) : List Store :=
  [⟨0, some len⟩, ⟨1, some len⟩, ⟨2, some len⟩, ⟨3, some len⟩]

/-- The value of `bytes_read` after `bytes_read++`. -/
def next_bytes_read (s : bson_output_streambuf) : Nat := (s.bytes_read + 1) % 2 ^ 32

/-- The value of `len` after `if (bytes_read <= 4) len |= (ch << (8 * (bytes_read - 1)));`. -/
def next_len (s : bson_output_streambuf) (ch : Int) : Nat :=
  if next_bytes_read s ≤ 4 then s.len ||| shifted ch (shift_count (next_bytes_read s))
  else s.len

/-- The array `data` points to after the allocation of the 4th byte and the store of a
later byte, that is, when control reaches `if (bytes_read == len)`. -/
def next_data (s : bson_output_streambuf) (ch : Int) : Option (List Nat) :=
  let d1 := if next_bytes_read s = 4 then allocate (next_len s ch) else s.data
  if next_bytes_read s > 4 then poke d1 (next_bytes_read s - 1) (ch % 256).toNat else d1

/-- The stores made before control reaches `if (bytes_read == len)`. -/
def next_stores (s : bson_output_streambuf) (ch : Int) : List Store :=
  let d1 := if next_bytes_read s = 4 then allocate (next_len s ch) else s.data
  (if next_bytes_read s = 4 then allocate_stores (next_len s ch) else []) ++
    (if next_bytes_read s > 4 then [store_at d1 (next_bytes_read s - 1)] else [])

/-- The member function `bson_output_streambuf::insert(int ch)`. -/
def insert (sink : View → Bool) (s : bson_output_streambuf) (ch : Int) : Step :=
  let br := next_bytes_read s
  let len := next_len s ch
  if br = 4 ∧ len > BSON_MAX_SIZE then
    ⟨⟨br, len, s.data⟩, .threw .too_large, [], []⟩
  else
    let data := next_data s ch
    let stores := next_stores s ch
    if br = len then
      let v : View := ⟨data, len⟩
      if sink v then ⟨⟨0, 0, none⟩, .returned ch, [v], stores⟩
      else ⟨⟨br, len, data⟩, .threw .insert_one, [v], stores⟩
    else if br > len ∧ len ≥ 4 then
      ⟨⟨br, len, data⟩, .returned EOF, [], stores⟩
    else
      ⟨⟨br, len, data⟩, .returned ch, [], stores⟩

/-- The member function `bson_output_streambuf::overflow(int ch)`. -/
def overflow (sink : View → Bool) (s : bson_output_streambuf) (ch : Int) : Step :=
  if ch < 0 ∨ ch > UINT8_MAX then
    ⟨s, .threw .out_of_bounds, [], []⟩
  else
    insert sink s ch

/-- Feeding a sequence of `int`s to one stream buffer, one `overflow` call each. The object
outlives an exception, so the call after a throwing one starts from the state at the throw. -/
def feed (sink : View → Bool) (s : bson_output_streambuf) : List Int → List Step
  | [] => []
  | ch :: rest => overflow sink s ch :: feed sink (overflow sink s ch).state rest

/-- The state of the stream buffer after a sequence of `overflow` calls. -/
def run (sink : View → Bool) (s : bson_output_streambuf) : List Int → bson_output_streambuf
  | [] => s
  | ch :: rest => run sink (overflow sink s ch).state rest

/-- A sink that never fails. -/
def accepting : View → Bool := fun _ => true

/-- A byte is valid when it lies in `[0, 255]`. -/
def valid_byte (ch : Int) : Prop := 0 ≤ ch ∧ ch ≤ 255

instance (ch : Int) : Decidable (valid_byte ch) := by
  unfold valid_byte; infer_instance

/-- The little-endian encoding of `n` in four bytes. -/
def le32 (n : Nat) : List Int :=
  [((n % 256 : Nat) : Int), ((n / 2 ^ 8 % 256 : Nat) : Int), ((n / 2 ^ 16 % 256 : Nat) : Int),
    ((n / 2 ^ 24 % 256 : Nat) : Int)]

/-- A well-formed document of declared length 257 (`01 01 00 00` followed by 253 bytes). -/
def doc257 : List Int := le32 257 ++ List.replicate 253 0

end bson_mapper

/-!
# Part 2: the record/document mapper

The functions `to_document`, `to_obj` and `to_optional_obj` are declared in
mongo_odm/odm_collection.hpp, which is not among the sources; only their tests
(src/mongo_odm/test/odm_collection.cpp) are. They are modelled from sections 3, 4.2 and 6 of
the specification.
-/

namespace mongo_odm

/-- Modelled from the spec: the element values of a document ("typed key/value elements").
The element encoding is owned by the external document format; the values the tests use are
32-bit integers, read with `get_int32()`. An `int` is carried as a mathematical integer, the
mapper performs no arithmetic on it. -/
inductive Value where
  | int32 (v : Int)
  | int64 (v : Int)
  | utf8 (s : String)
  | bool (b : Bool)
deriving DecidableEq, Repr

/-- Modelled from the spec: a document as the ordered sequence of its keyed elements. -/
abbrev Document := List (String × Value)

/-- Modelled from the spec: the mapper-level conversion failures of section 7. -/
inductive MapperError where
  | UnsupportedFieldType
  | TypeMismatch
deriving DecidableEq, Repr

/-- Modelled from the spec: one pair `(field_name, field_accessor)` of the reflection
contract of section 6, "usable for both read and write access". Reading a field yields its
document value, or nothing when the value cannot be represented in the document format;
writing converts a document value and assigns it, or fails when the value cannot convert to
the declared type of the field. -/
structure Field (T : Type) where
  name : String
  get : T → Option Value
  set : T → Value → Option T

/-- Modelled from the spec: the element access `view[key]` of the external document format,
the first element stored under the key, if any. -/
def lookup : Document → String → Option Value
  | [], _ => none
  | (k, v) :: d, key => if k = key then some v else lookup d key

/-- Modelled from the spec: `to_document(record)` "visits every declared field of `record`
in declaration order, writes each as a document element keyed by field name"; "a field
whose value cannot be represented in the document format fails the whole conversion
(`UnsupportedFieldType`)". The function itself is in odm_collection.hpp, not in the
sources. -/
def to_document {T : Type} : List (Field T) → T → Except MapperError Document
  | [], _ => .ok []
  | f :: fs, r =>
    match f.get r with
    | none => .error .UnsupportedFieldType
    | some v =>
      match to_document fs r with
      | .error e => .error e
      | .ok d => .ok ((f.name, v) :: d)

/-- Modelled from the spec: `to_record(document, out_record)`, the fill-by-reference form
`to_obj(view, obj)` of the tests: "for each field declared by `T`, look up the matching key
in `document`; if present, convert and assign; if absent, leave the field at its
current/default value"; "fails with `TypeMismatch` if a present key's value cannot convert
to the field's declared type". The function itself is in odm_collection.hpp. -/
def to_obj_ref {T : Type} : List (Field T) → Document → T → Except MapperError T
  | [], _, out => .ok out
  | f :: fs, d, out =>
    match lookup d f.name with
    | none => to_obj_ref fs d out
    | some v =>
      match f.set out v with
      | none => .error .TypeMismatch
      | some out1 => to_obj_ref fs d out1

/-- Modelled from the spec: `to_record<T>(document)`, the return-by-value form
`to_obj<T>(view)` of the tests: a default-constructed record filled by reference. -/
def to_obj {T : Type} [Inhabited T] (fields : List (Field T)) (d : Document) :
    Except MapperError T :=
  to_obj_ref fields d default

/-- Modelled from the spec: what the reflection contract of section 6 asks of a record type:
an ordered set of named fields (no name twice), accessors that read back what they wrote
and accept what they produce, that leave the other fields alone, and that together
determine the record. -/
structure Lawful {T : Type} (fields : List (Field T)) : Prop where
  names_nodup : (fields.map Field.name).Nodup
  set_of_get : ∀ f ∈ fields, ∀ (r out : T) (v : Value),
    f.get r = some v → ∃ out1, f.set out v = some out1
  get_set : ∀ f ∈ fields, ∀ (out out1 : T) (v : Value),
    f.set out v = some out1 → f.get out1 = some v
  get_set_other : ∀ f ∈ fields, ∀ g ∈ fields, f.name ≠ g.name →
    ∀ (out out1 : T) (v : Value), f.set out v = some out1 → g.get out1 = g.get out
  ext : ∀ a b : T, (∀ f ∈ fields, f.get a = f.get b) → a = b

/-- The record type of the tests: `class Foo { public: int a, b, c; }`. -/
structure Foo where
  a : Int
  b : Int
  c : Int
deriving DecidableEq, Repr

/-- A default-constructed `Foo` (`Foo obj2;`); its indeterminate members read as 0. -/
instance : Inhabited Foo := ⟨⟨0, 0, 0⟩⟩

/-- The conversion of a document value to an `int` field. -/
def as_int : Value → Option Int
  | .int32 v => some v
  | _ => none

/-- Modelled from the spec: the reflection of `Foo`, its three `int` members under their
names, in declaration order (the commented-out `serialize` of the test file:
`ar(CEREAL_NVP(a), CEREAL_NVP(b), CEREAL_NVP(c))`). -/
def Foo.fields : List (Field Foo) :=
  [⟨"a", fun r => some (.int32 r.a), fun r v => (as_int v).map (fun x => { r with a := x })⟩,
   ⟨"b", fun r => some (.int32 r.b), fun r v => (as_int v).map (fun x => { r with b := x })⟩,
   ⟨"c", fun r => some (.int32 r.c), fun r v => (as_int v).map (fun x => { r with c := x })⟩]

/-- Modelled from the spec: `to_optional_record<T>(optional<document>)`, the function
`to_optional_obj<T>` of the tests: "`absent` maps to `absent`; present document maps through
`to_record`". The function itself is in odm_collection.hpp. -/
def to_optional_obj {T : Type} [Inhabited T] (fields : List (Field T)) :
    Option Document → Except MapperError (Option T)
  | none => .ok none
  | some d =>
    match to_obj fields d with
    | .error e => .error e
    | .ok r => .ok (some r)

/-- The document of the tests, `from_json("{\"a\": 1, \"b\":4, \"c\": 9}")`. -/
def doc : Document := [("a", .int32 1), ("b", .int32 4), ("c", .int32 9)]

/-- The object of the tests, `Foo obj{1, 4, 9}`. -/
def obj : Foo := ⟨1, 4, 9⟩

end mongo_odm

/-!
# Part 3: theorems about the stream buffer
-/

namespace bson_mapper

/-! ## Step lemmas -/

theorem overflow_valid (sink : View → Bool) (s : bson_output_streambuf) (ch : Int)
    (h : valid_byte ch) : overflow sink s ch = insert sink s ch := by
  unfold overflow UINT8_MAX
  have h1 : ¬ (ch < 0 ∨ ch > 255) := by
    rcases h with ⟨h0, h255⟩
    omega
  simp [h1]

theorem completing_not_too_large (s : bson_output_streambuf) (ch : Int)
    (h : next_bytes_read s = next_len s ch) :
    ¬ (next_bytes_read s = 4 ∧ next_len s ch > BSON_MAX_SIZE) := by
  rintro ⟨h4, hbig⟩
  rw [← h, h4] at hbig
  simp [BSON_MAX_SIZE] at hbig

theorem insert_completing (sink : View → Bool) (s : bson_output_streambuf) (ch : Int)
    (h : next_bytes_read s = next_len s ch)
    (hs : sink ⟨next_data s ch, next_len s ch⟩ = true) :
    insert sink s ch =
      ⟨empty, .returned ch, [⟨next_data s ch, next_len s ch⟩], next_stores s ch⟩ := by
  have hb := completing_not_too_large s ch h
  unfold insert
  simp only []
  rw [if_neg hb, if_pos h, if_pos hs]
  rfl

theorem insert_sink_failing (sink : View → Bool) (s : bson_output_streambuf) (ch : Int)
    (h : next_bytes_read s = next_len s ch)
    (hs : sink ⟨next_data s ch, next_len s ch⟩ = false) :
    insert sink s ch =
      ⟨⟨next_len s ch, next_len s ch, next_data s ch⟩, .threw .insert_one,
        [⟨next_data s ch, next_len s ch⟩], next_stores s ch⟩ := by
  have hb := completing_not_too_large s ch h
  unfold insert
  simp only []
  rw [if_neg hb, if_pos h, if_neg (by simp [hs]), h]

theorem next_bytes_read_of_lt (s : bson_output_streambuf) (h : s.bytes_read + 1 < 2 ^ 32) :
    next_bytes_read s = s.bytes_read + 1 := by
  unfold next_bytes_read
  exact Nat.mod_eq_of_lt h

theorem next_len_of_gt (s : bson_output_streambuf) (ch : Int) (h : 4 < next_bytes_read s) :
    next_len s ch = s.len := by
  unfold next_len
  rw [if_neg (by omega)]

theorem feed_append (sink : View → Bool) (a b : List Int) :
    ∀ s : bson_output_streambuf,
      feed sink s (a ++ b) = feed sink s a ++ feed sink (run sink s a) b := by
  induction a with
  | nil => intro s; rfl
  | cons ch rest ih =>
    intro s
    show overflow sink s ch :: feed sink (overflow sink s ch).state (rest ++ b) = _
    rw [ih]
    rfl

theorem feed_length (sink : View → Bool) (a : List Int) :
    ∀ s : bson_output_streambuf, (feed sink s a).length = a.length := by
  induction a with
  | nil => intro s; rfl
  | cons ch rest ih => intro s; simp only [feed, List.length_cons, ih]

theorem run_eq_of_getLast (sink : View → Bool) (a : List Int) :
    ∀ (s : bson_output_streambuf) (o : Step),
      (feed sink s a).getLast? = some o → run sink s a = o.state := by
  induction a with
  | nil => intro s o h; simp [feed] at h
  | cons ch rest ih =>
    intro s o h
    cases rest with
    | nil =>
      simp only [feed, List.getLast?_singleton, Option.some.injEq] at h
      simp only [run, h]
    | cons c r =>
      have h2 : (feed sink (overflow sink s ch).state (c :: r)).getLast? = some o := by
        simp only [feed] at h ⊢
        rw [List.getLast?_cons_cons] at h
        exact h
      simpa only [run] using ih (overflow sink s ch).state o h2

theorem insert_sunk_state (s : bson_output_streambuf) (ch : Int)
    (h : (insert accepting s ch).sunk ≠ []) : (insert accepting s ch).state = empty := by
  unfold insert at h ⊢
  simp only [accepting, if_true] at h ⊢
  split_ifs at h ⊢ <;> first | rfl | exact absurd rfl h

theorem overflow_sunk_state (s : bson_output_streambuf) (ch : Int)
    (h : (overflow accepting s ch).sunk ≠ []) : (overflow accepting s ch).state = empty := by
  unfold overflow at h ⊢
  split_ifs at h ⊢
  · exact absurd rfl h
  · exact insert_sunk_state s ch h

theorem feed_sunk_state (a : List Int) :
    ∀ (s : bson_output_streambuf), ∀ o ∈ feed accepting s a, o.sunk ≠ [] → o.state = empty := by
  induction a with
  | nil => intro s o ho; simp [feed] at ho
  | cons ch rest ih =>
    intro s o ho hs
    simp only [feed, List.mem_cons] at ho
    rcases ho with ho | ho
    · subst ho
      exact overflow_sunk_state s ch hs
    · exact ih _ o ho hs

/-! ## Framing of a whole document -/

theorem valid_byte_toNat (ch : Int) (h : valid_byte ch) : (ch % 256).toNat = ch.toNat := by
  rcases h with ⟨h0, h1⟩
  omega

theorem next_of_body (buf : List Nat) (m pad N : Nat) (ch : Int) (hm : m = pad + 1)
    (hbuf : 4 ≤ buf.length) (hN : N = buf.length + m) (hmax : N ≤ BSON_MAX_SIZE)
    (hch : valid_byte ch) :
    next_bytes_read ⟨buf.length, N, some (buf ++ List.replicate m 0)⟩ = buf.length + 1 ∧
    next_len ⟨buf.length, N, some (buf ++ List.replicate m 0)⟩ ch = N ∧
    next_data ⟨buf.length, N, some (buf ++ List.replicate m 0)⟩ ch =
      some ((buf ++ [ch.toNat]) ++ List.replicate pad 0) ∧
    next_stores ⟨buf.length, N, some (buf ++ List.replicate m 0)⟩ ch =
      [⟨buf.length, some N⟩] := by
  subst hm
  have hlt : buf.length + 1 < 2 ^ 32 := by
    simp only [BSON_MAX_SIZE] at hmax
    omega
  have hbr : next_bytes_read ⟨buf.length, N, some (buf ++ List.replicate (pad + 1) 0)⟩ =
      buf.length + 1 := next_bytes_read_of_lt _ hlt
  have hlen : next_len ⟨buf.length, N, some (buf ++ List.replicate (pad + 1) 0)⟩ ch = N :=
    next_len_of_gt _ ch (by rw [hbr]; omega)
  have h4 : ¬ (buf.length + 1 = 4) := by omega
  have h5 : buf.length + 1 > 4 := by omega
  refine ⟨hbr, hlen, ?_, ?_⟩
  · unfold next_data
    simp only [hbr, if_neg h4, if_pos h5]
    simp only [poke, Option.map_some', Nat.add_sub_cancel, valid_byte_toNat ch hch]
    rw [List.set_append_right _ _ (Nat.le_refl _)]
    simp [List.replicate_succ]
  · unfold next_stores
    simp only [hbr, if_neg h4, if_pos h5]
    simp [store_at, hN]

theorem insert_storing (sink : View → Bool) (s : bson_output_streambuf) (ch : Int)
    (h1 : ¬ (next_bytes_read s = 4 ∧ next_len s ch > BSON_MAX_SIZE))
    (h2 : next_bytes_read s ≠ next_len s ch)
    (h3 : ¬ (next_bytes_read s > next_len s ch ∧ next_len s ch ≥ 4)) :
    insert sink s ch =
      ⟨⟨next_bytes_read s, next_len s ch, next_data s ch⟩, .returned ch, [],
        next_stores s ch⟩ := by
  unfold insert
  simp only []
  rw [if_neg h1, if_neg h2, if_neg h3]

theorem feed_body (rest : List Int) :
    ∀ (buf : List Nat) (k m N : Nat), k = buf.length → m = rest.length → 4 ≤ k → rest ≠ [] →
      N = k + m → N ≤ BSON_MAX_SIZE → (∀ ch ∈ rest, valid_byte ch) →
      (feed accepting ⟨k, N, some (buf ++ List.replicate m 0)⟩ rest).map Step.outcome =
        rest.map Outcome.returned ∧
      (feed accepting ⟨k, N, some (buf ++ List.replicate m 0)⟩ rest).map Step.sunk =
        List.replicate (m - 1) [] ++ [[⟨some (buf ++ rest.map Int.toNat), N⟩]] ∧
      (∀ o ∈ feed accepting ⟨k, N, some (buf ++ List.replicate m 0)⟩ rest,
        ∀ w ∈ o.stores, w.in_bounds = true) ∧
      run accepting ⟨k, N, some (buf ++ List.replicate m 0)⟩ rest = empty := by
  induction rest with
  | nil => intro buf k m N _ _ _ h; exact absurd rfl h
  | cons ch tl ih =>
    intro buf k m N hk hm hk4 _ hN hmax hv
    subst hk
    have hch : valid_byte ch := hv ch (List.mem_cons_self _ _)
    have hm1 : m = tl.length + 1 := by simpa only [List.length_cons] using hm
    obtain ⟨hbr, hlen, hdata, hstores⟩ :=
      next_of_body buf m tl.length N ch hm1 hk4 hN hmax hch
    have hbound : Store.in_bounds ⟨buf.length, some N⟩ = true := by
      simp only [Store.in_bounds, decide_eq_true_eq]
      omega
    cases tl with
    | nil =>
      have hm0 : m = 1 := hm1
      have hdone : next_bytes_read ⟨buf.length, N, some (buf ++ List.replicate m 0)⟩ =
          next_len ⟨buf.length, N, some (buf ++ List.replicate m 0)⟩ ch := by
        rw [hbr, hlen]
        omega
      have hstep := insert_completing accepting ⟨buf.length, N, some (buf ++ List.replicate m 0)⟩
        ch hdone rfl
      rw [hlen, hdata, hstores] at hstep
      simp only [feed, run, overflow_valid accepting _ ch hch, hstep]
      refine ⟨rfl, by simp [hm0], ?_, ?_⟩
      swap
      · first | rfl | trivial
      intro o ho w hw
      simp only [List.mem_singleton] at ho
      subst ho
      simp only [List.mem_singleton] at hw
      subst hw
      exact hbound
    | cons c r =>
      have hm2 : m = r.length + 1 + 1 := hm1
      have hstep := insert_storing accepting
        ⟨buf.length, N, some (buf ++ List.replicate m 0)⟩ ch
        (by rw [hbr]; omega) (by rw [hbr, hlen]; omega) (by rw [hbr, hlen]; omega)
      rw [hbr, hlen, hdata, hstores] at hstep
      have hv1 : ∀ x ∈ c :: r, valid_byte x := fun x hx => hv x (List.mem_cons_of_mem _ hx)
      obtain ⟨i1, i2, i3, i4⟩ := ih (buf ++ [ch.toNat]) (buf.length + 1) (c :: r).length N
        (by simp) rfl (by omega) (by simp)
        (by simp only [List.length_cons]; omega) hmax hv1
      have hfeed : feed accepting ⟨buf.length, N, some (buf ++ List.replicate m 0)⟩
          (ch :: c :: r) =
          ⟨⟨buf.length + 1, N, some (buf ++ [ch.toNat] ++ List.replicate (c :: r).length 0)⟩,
            .returned ch, [], [⟨buf.length, some N⟩]⟩ ::
          feed accepting
            ⟨buf.length + 1, N, some (buf ++ [ch.toNat] ++ List.replicate (c :: r).length 0)⟩
            (c :: r) := by
        show overflow accepting _ ch :: feed accepting (overflow accepting _ ch).state _ = _
        rw [overflow_valid accepting _ ch hch, hstep]
      have hrun : run accepting ⟨buf.length, N, some (buf ++ List.replicate m 0)⟩
          (ch :: c :: r) =
          run accepting
            ⟨buf.length + 1, N, some (buf ++ [ch.toNat] ++ List.replicate (c :: r).length 0)⟩
            (c :: r) := by
        show run accepting (overflow accepting _ ch).state _ = _
        rw [overflow_valid accepting _ ch hch, hstep]
      rw [hfeed, hrun]
      refine ⟨?_, ?_, ?_, i4⟩
      · simp only [List.map_cons, i1]
      · rw [List.map_cons, i2, hm2]
        simp [List.replicate_succ]
      · intro o ho w hw
        rcases List.mem_cons.mp ho with ho | ho
        · subst ho
          simp only [List.mem_singleton] at hw
          subst hw
          exact hbound
        · exact i3 o ho w hw

theorem shifted_byte (b k : Nat) (hb : b < 256) (hk : k ≤ 24) :
    shifted (b : Int) k = b * 2 ^ k := by
  have hlt : b * 2 ^ k < 2 ^ 32 := by
    have h1 : 2 ^ k ≤ 2 ^ 24 := Nat.pow_le_pow_right (by decide) hk
    calc b * 2 ^ k ≤ 255 * 2 ^ 24 := Nat.mul_le_mul (by omega) h1
      _ < 2 ^ 32 := by decide
  unfold shifted
  rw [if_pos (by omega)]
  have hcast : ((b : Int) * 2 ^ k) % 2 ^ 32 = ((b * 2 ^ k % 2 ^ 32 : Nat) : Int) := by
    push_cast
    rfl
  rw [hcast, Int.toNat_natCast, Nat.mod_eq_of_lt hlt]

theorem lor_shifted (a b k : Nat) (ha : a < 2 ^ k) (hb : b < 256) (hk : k ≤ 24) :
    a ||| shifted (b : Int) k = a + b * 2 ^ k := by
  rw [shifted_byte b k hb hk, Nat.lor_comm, Nat.mul_comm b, ← Nat.mul_add_lt_is_or ha b,
    Nat.add_comm]

theorem next_of_len_byte (N k : Nat) (hk : k < 4) :
    next_bytes_read ⟨k, N % 2 ^ (8 * k), none⟩ = k + 1 ∧
    next_len ⟨k, N % 2 ^ (8 * k), none⟩ ((N / 2 ^ (8 * k) % 256 : Nat) : Int) =
      N % 2 ^ (8 * (k + 1)) := by
  have hbr : next_bytes_read ⟨k, N % 2 ^ (8 * k), none⟩ = k + 1 :=
    next_bytes_read_of_lt _ (by show k + 1 < 2 ^ 32; omega)
  refine ⟨hbr, ?_⟩
  unfold next_len
  rw [hbr, if_pos (by omega)]
  have hsc : shift_count (k + 1) = 8 * k := by
    unfold shift_count
    omega
  rw [hsc, lor_shifted _ _ _ (Nat.mod_lt _ (by positivity)) (Nat.mod_lt _ (by decide))
    (by omega)]
  have hpow : 2 ^ (8 * (k + 1)) = 2 ^ (8 * k) * 256 := by
    rw [Nat.mul_add, Nat.pow_add]
  rw [hpow, Nat.mod_mul, Nat.mul_comm (2 ^ (8 * k))]

theorem valid_byte_cast (n : Nat) : valid_byte ((n % 256 : Nat) : Int) := by
  unfold valid_byte
  omega

theorem overflow_len_byte (N k : Nat) (hk : k < 3) (hne : N % 2 ^ (8 * (k + 1)) ≠ k + 1) :
    overflow accepting ⟨k, N % 2 ^ (8 * k), none⟩ ((N / 2 ^ (8 * k) % 256 : Nat) : Int) =
      ⟨⟨k + 1, N % 2 ^ (8 * (k + 1)), none⟩, .returned ((N / 2 ^ (8 * k) % 256 : Nat) : Int),
        [], []⟩ := by
  obtain ⟨hbr, hlen⟩ := next_of_len_byte N k (by omega)
  have hdata : next_data ⟨k, N % 2 ^ (8 * k), none⟩ ((N / 2 ^ (8 * k) % 256 : Nat) : Int) =
      none := by
    unfold next_data
    simp only [hbr]
    rw [if_neg (by omega), if_neg (by omega)]
  have hstores : next_stores ⟨k, N % 2 ^ (8 * k), none⟩
      ((N / 2 ^ (8 * k) % 256 : Nat) : Int) = [] := by
    unfold next_stores
    simp only [hbr]
    rw [if_neg (by omega), if_neg (by omega)]
    rfl
  rw [overflow_valid _ _ _ (valid_byte_cast _),
    insert_storing accepting _ _ (by rw [hbr]; omega) (by rw [hbr, hlen]; exact fun h => hne h.symm)
      (by rw [hbr, hlen]; omega),
    hbr, hlen, hdata, hstores]

theorem overflow_len_last (N : Nat) (hmax : N ≤ BSON_MAX_SIZE) (hne : N ≠ 4) :
    overflow accepting ⟨3, N % 2 ^ 24, none⟩ ((N / 2 ^ 24 % 256 : Nat) : Int) =
      ⟨⟨4, N, allocate N⟩, .returned ((N / 2 ^ 24 % 256 : Nat) : Int), [],
        allocate_stores N⟩ := by
  obtain ⟨hbr, hlen⟩ := next_of_len_byte N 3 (by omega)
  have hN : N % 2 ^ (8 * (3 + 1)) = N := by
    simp only [BSON_MAX_SIZE] at hmax
    omega
  rw [hN] at hlen
  have hdata : next_data ⟨3, N % 2 ^ (8 * 3), none⟩ ((N / 2 ^ (8 * 3) % 256 : Nat) : Int) =
      allocate N := by
    unfold next_data
    simp only [hbr, hlen]
    rfl
  have hstores : next_stores ⟨3, N % 2 ^ (8 * 3), none⟩
      ((N / 2 ^ (8 * 3) % 256 : Nat) : Int) = allocate_stores N := by
    unfold next_stores
    simp only [hbr, hlen]
    rfl
  show overflow accepting ⟨3, N % 2 ^ (8 * 3), none⟩ ((N / 2 ^ (8 * 3) % 256 : Nat) : Int) = _
  rw [overflow_valid _ _ _ (valid_byte_cast _),
    insert_storing accepting _ _ (by rw [hlen]; omega) (by rw [hbr, hlen]; omega)
      (by rw [hbr, hlen]; omega),
    hbr, hlen, hdata, hstores]

theorem feed_len (N : Nat) (hmax : N ≤ BSON_MAX_SIZE) (h1 : N % 2 ^ 8 ≠ 1)
    (h2 : N % 2 ^ 16 ≠ 2) (h3 : N % 2 ^ 24 ≠ 3) (h4 : N ≠ 4) :
    feed accepting empty (le32 N) =
      [⟨⟨1, N % 2 ^ 8, none⟩, .returned ((N % 256 : Nat) : Int), [], []⟩,
       ⟨⟨2, N % 2 ^ 16, none⟩, .returned ((N / 2 ^ 8 % 256 : Nat) : Int), [], []⟩,
       ⟨⟨3, N % 2 ^ 24, none⟩, .returned ((N / 2 ^ 16 % 256 : Nat) : Int), [], []⟩,
       ⟨⟨4, N, allocate N⟩, .returned ((N / 2 ^ 24 % 256 : Nat) : Int), [],
         allocate_stores N⟩] ∧
    run accepting empty (le32 N) = ⟨4, N, allocate N⟩ := by
  have s1 := overflow_len_byte N 0 (by omega) h1
  have s2 := overflow_len_byte N 1 (by omega) h2
  have s3 := overflow_len_byte N 2 (by omega) h3
  have s4 := overflow_len_last N hmax h4
  simp only [Nat.mul_zero, Nat.pow_zero, Nat.mod_one, Nat.div_one, Nat.zero_add,
    Nat.mul_one, Nat.reduceAdd, Nat.reduceMul] at s1 s2 s3
  simp only [feed, run, le32, empty, s1, s2, s3, s4, and_self]

theorem run_append (sink : View → Bool) (a b : List Int) :
    ∀ s : bson_output_streambuf, run sink s (a ++ b) = run sink (run sink s a) b := by
  induction a with
  | nil => intro s; rfl
  | cons ch rest ih =>
    intro s
    show run sink (overflow sink s ch).state (rest ++ b) = _
    rw [ih]
    rfl

theorem allocate_eq (N : Nat) (h : 4 ≤ N) :
    allocate N = some ([N % 256, N / 2 ^ 8 % 256, N / 2 ^ 16 % 256, N / 2 ^ 24 % 256] ++
      List.replicate (N - 4) 0) := by
  obtain ⟨m, rfl⟩ : ∃ m, N = m + 4 := ⟨N - 4, by omega⟩
  simp [allocate, poke, len_byte, List.replicate_succ]

theorem le32_toNat (N : Nat) :
    (le32 N).map Int.toNat = [N % 256, N / 2 ^ 8 % 256, N / 2 ^ 16 % 256, N / 2 ^ 24 % 256] := by
  simp only [le32, List.map_cons, List.map_nil, Int.toNat_natCast]

theorem feed_document (N : Nat) (body : List Int) (h5 : 5 ≤ N) (hmax : N ≤ BSON_MAX_SIZE)
    (h1 : N % 2 ^ 8 ≠ 1) (h2 : N % 2 ^ 16 ≠ 2) (h3 : N % 2 ^ 24 ≠ 3)
    (hbody : body.length = N - 4) (hv : ∀ ch ∈ body, valid_byte ch) :
    (feed accepting empty (le32 N ++ body)).map Step.outcome =
      (le32 N ++ body).map Outcome.returned ∧
    (feed accepting empty (le32 N ++ body)).map Step.sunk =
      List.replicate (N - 1) [] ++ [[⟨some ((le32 N ++ body).map Int.toNat), N⟩]] ∧
    (∀ o ∈ feed accepting empty (le32 N ++ body), ∀ w ∈ o.stores, w.in_bounds = true) ∧
    run accepting empty (le32 N ++ body) = empty := by
  obtain ⟨hfeed, hrun⟩ := feed_len N hmax h1 h2 h3 (by omega)
  have hne : body ≠ [] := by
    intro h
    rw [h] at hbody
    simp only [List.length_nil] at hbody
    omega
  obtain ⟨b1, b2, b3, b4⟩ := feed_body body
    [N % 256, N / 2 ^ 8 % 256, N / 2 ^ 16 % 256, N / 2 ^ 24 % 256] 4 (N - 4) N rfl
    hbody.symm (Nat.le_refl 4) hne (by omega) hmax hv
  rw [← allocate_eq N (by omega)] at b1 b2 b3 b4
  rw [feed_append, run_append, hrun, hfeed]
  refine ⟨?_, ?_, ?_, b4⟩
  · rw [List.map_append, b1, List.map_append]
    rfl
  · rw [List.map_append, b2, List.map_append, le32_toNat]
    obtain ⟨m, rfl⟩ : ∃ m, N = m + 5 := ⟨N - 5, by omega⟩
    simp [List.replicate_succ]
  · intro o ho w hw
    rcases List.mem_append.mp ho with ho | ho
    · simp only [List.mem_cons, List.mem_singleton, List.not_mem_nil, or_false] at ho
      rcases ho with rfl | rfl | rfl | rfl
      · simp at hw
      · simp at hw
      · simp at hw
      · simp only [allocate_stores, List.mem_cons, List.mem_singleton, List.not_mem_nil,
          or_false] at hw
        rcases hw with rfl | rfl | rfl | rfl <;>
          · simp only [Store.in_bounds, decide_eq_true_eq]
            omega
    · exact b3 o ho w hw

/-! ## Claims about the stream buffer -/

set_option maxRecDepth 1000000 in
/-- C1 (evaluation of the code at a failing input). The well-formed document of declared
length 257 starts with the byte 1; fed from the empty state with a sink that never fails,
its first byte already makes `bytes_read == len` (1 == 1), so `coll.insert_one` is called on
the 1st byte with a null view of length 1, again on the 2nd byte, and on no later byte: the
sink is invoked twice, never on the 257th byte and never with a view of length 257. -/
theorem framer_completeness_fails_at_257 :
    doc257.length = 257 ∧ doc257.take 4 = le32 257 ∧
    (feed accepting empty doc257).map Step.sunk =
      [⟨none, 1⟩] :: [⟨none, 1⟩] :: List.replicate 255 [] := by
  decide

/-- C2 (evaluation of the code at a failing input). The four valid bytes `01 00 00 80` have
the little-endian value `2 ^ 31 + 1`, greater than `BSON_MAX_SIZE`. Fed from the empty state,
the 1st byte makes `bytes_read == len` (1 == 1): `coll.insert_one` is called with a null view
of length 1 and the state is reset, so the 4th byte is counted as the 3rd byte of a new
frame and is returned without any oversized-document error. -/
theorem oversize_rejection_fails_at_01_00_00_80 :
    (1 + 2 ^ 8 * 0 + 2 ^ 16 * 0 + 2 ^ 24 * 128 > BSON_MAX_SIZE) ∧
    (feed accepting empty [1, 0, 0, 128]).map (fun o => (o.outcome, o.sunk)) =
      [(.returned 1, [⟨none, 1⟩]), (.returned 0, []), (.returned 0, []), (.returned 128, [])] ∧
    run accepting empty [1, 0, 0, 128] = ⟨3, 2 ^ 23, none⟩ := by
  decide

/-- C3 (counterexample). With a sink that fails, the 5-byte document `05 00 00 00 07` fed
from the empty state makes `overflow` throw the sink's exception on the 5th byte, and the
state left behind is `bytes_read = 5, len = 5` with the buffer still allocated: it is not
the empty state. -/
theorem sink_failure_does_not_reset :
    ((feed (fun _ => false) empty [5, 0, 0, 0, 7]).map Step.outcome =
      [.returned 5, .returned 0, .returned 0, .returned 0, .threw .insert_one]) ∧
    run (fun _ => false) empty [5, 0, 0, 0, 7] = ⟨5, 5, some [5, 0, 0, 0, 7]⟩ ∧
    run (fun _ => false) empty [5, 0, 0, 0, 7] ≠ empty := by
  decide

/-- C3 (amended). Whenever a valid byte makes `bytes_read` equal `len` and the call of
`coll.insert_one` on the completed view fails, `overflow` propagates that failure for this
byte after exactly one sink call, and the state is not reset: it is left as it was at the
call, `bytes_read` and `len` both equal to the completed length and `data` still the
pointer that was handed to the sink, nothing being released. That pointer is the buffer,
still allocated, with the byte stored, when the byte lands inside a buffer the frame
already has; it is the 4-byte buffer just allocated with the length bytes when the
completing byte is the 4th; and it is null, no store having been made, when the completion
fires on one of the first three bytes of a frame that has no buffer. Unless the counter
wrapped around, the state left is not the empty state. -/
theorem sink_failure_propagates_and_keeps_state (sink : View → Bool)
    (s : bson_output_streambuf) (ch : Int) (hch : valid_byte ch)
    (hdone : next_bytes_read s = next_len s ch)
    (hfail : sink ⟨next_data s ch, next_len s ch⟩ = false) :
    (overflow sink s ch).outcome = .threw .insert_one ∧
    (overflow sink s ch).sunk = [⟨next_data s ch, next_len s ch⟩] ∧
    (overflow sink s ch).state = ⟨next_len s ch, next_len s ch, next_data s ch⟩ ∧
    (overflow sink s ch).state.bytes_read = next_bytes_read s ∧
    (overflow sink s ch).sunk.map View.data = [(overflow sink s ch).state.data] ∧
    (∀ buf : List Nat, s.data = some buf → 4 ≤ s.bytes_read → s.bytes_read < buf.length →
      s.bytes_read + 1 < 2 ^ 32 →
      (overflow sink s ch).state.data = some (buf.set s.bytes_read ch.toNat) ∧
      (overflow sink s ch).stores = [⟨s.bytes_read, some buf.length⟩] ∧
      (overflow sink s ch).defined = true) ∧
    (next_bytes_read s = 4 →
      (overflow sink s ch).state.data = some [4, 0, 0, 0] ∧
      (overflow sink s ch).defined = true) ∧
    (s.data = none → next_bytes_read s < 4 →
      (overflow sink s ch).state.data = none ∧ (overflow sink s ch).stores = []) ∧
    (s.bytes_read + 1 < 2 ^ 32 → (overflow sink s ch).state ≠ empty) := by
  rw [overflow_valid sink s ch hch, insert_sink_failing sink s ch hdone hfail]
  refine ⟨rfl, rfl, rfl, hdone.symm, rfl, ?_, ?_, ?_, ?_⟩
  · intro buf hbuf h4 hin hw
    have hbr := next_bytes_read_of_lt s hw
    have h5 : s.bytes_read + 1 > 4 := by omega
    have hn4 : ¬ (s.bytes_read + 1 = 4) := by omega
    have hd : next_data s ch = some (buf.set s.bytes_read ch.toNat) := by
      unfold next_data
      simp only [hbr, if_neg hn4, if_pos h5, hbuf, poke, Option.map_some',
        Nat.add_sub_cancel, valid_byte_toNat ch hch]
    have hst : next_stores s ch = [⟨s.bytes_read, some buf.length⟩] := by
      unfold next_stores
      simp only [hbr, if_neg hn4, if_pos h5, hbuf, store_at, Option.map_some',
        Nat.add_sub_cancel, List.nil_append]
    refine ⟨hd, hst, ?_⟩
    show (next_stores s ch).all Store.in_bounds = true
    rw [hst]
    simp only [List.all_cons, List.all_nil, Bool.and_true, Store.in_bounds,
      decide_eq_true_eq]
    exact hin
  · intro h4
    have hl : next_len s ch = 4 := by rw [← hdone, h4]
    have hd : next_data s ch = some [4, 0, 0, 0] := by
      unfold next_data
      simp only [h4, hl, if_true]
      rw [if_neg (by decide)]
      decide
    have hst : next_stores s ch = allocate_stores 4 := by
      unfold next_stores
      simp only [h4, hl, if_true]
      decide
    refine ⟨hd, ?_⟩
    show (next_stores s ch).all Store.in_bounds = true
    rw [hst]
    decide
  · intro hnone hlt
    have hn4 : ¬ (next_bytes_read s = 4) := by omega
    have hn5 : ¬ (next_bytes_read s > 4) := by omega
    constructor
    · show next_data s ch = none
      unfold next_data
      simp only [if_neg hn4, if_neg hn5, hnone]
    · show next_stores s ch = []
      unfold next_stores
      simp only [if_neg hn4, if_neg hn5, List.append_nil]
  · intro hw he
    have hbr := next_bytes_read_of_lt s hw
    have h0 : next_len s ch = 0 := congrArg bson_output_streambuf.bytes_read he
    omega

theorem sink_failure_propagates_and_keeps_state_witness :
    (overflow (fun _ => false) ⟨4, 5, some [5, 0, 0, 0, 0]⟩ 7).outcome = .threw .insert_one ∧
    (overflow (fun _ => false) ⟨4, 5, some [5, 0, 0, 0, 0]⟩ 7).state =
      ⟨5, 5, some [5, 0, 0, 0, 7]⟩ ∧
    (overflow (fun _ => false) empty 1).state = ⟨1, 1, none⟩ :=
  have h := sink_failure_propagates_and_keeps_state (fun _ => false)
    ⟨4, 5, some [5, 0, 0, 0, 0]⟩ 7 (by decide) (by decide) (by decide)
  have h1 := sink_failure_propagates_and_keeps_state (fun _ => false)
    empty 1 (by decide) (by decide) (by decide)
  ⟨h.1, h.2.2.1, h1.2.2.1⟩

/-- C4. For every state and every `int` `ch`, `overflow(ch)` throws
`std::invalid_argument("Character is out of bounds.")` if and only if `ch < 0` or `ch > 255`;
when it does, the sink is not invoked, no store is made and `bytes_read`, `len` and `data`
are unchanged. -/
theorem overflow_out_of_bounds_iff (sink : View → Bool) (s : bson_output_streambuf)
    (ch : Int) :
    ((overflow sink s ch).outcome = .threw .out_of_bounds ↔ (ch < 0 ∨ ch > 255)) ∧
    ((overflow sink s ch).outcome = .threw .out_of_bounds →
      (overflow sink s ch).sunk = [] ∧ (overflow sink s ch).stores = [] ∧
      (overflow sink s ch).state = s) := by
  by_cases h : ch < 0 ∨ ch > 255
  · have ho : overflow sink s ch = ⟨s, .threw .out_of_bounds, [], []⟩ := by
      unfold overflow UINT8_MAX
      rw [if_pos h]
    rw [ho]
    exact ⟨⟨fun _ => h, fun _ => rfl⟩, fun _ => ⟨rfl, rfl, rfl⟩⟩
  · have ho : overflow sink s ch = insert sink s ch := by
      unfold overflow UINT8_MAX
      rw [if_neg h]
    have hne : (insert sink s ch).outcome ≠ .threw .out_of_bounds := by
      unfold insert
      simp only []
      split_ifs <;> simp
    rw [ho]
    exact ⟨⟨fun e => absurd e hne, fun e => absurd e h⟩, fun e => absurd e hne⟩

theorem overflow_out_of_bounds_iff_witness :
    (overflow accepting ⟨4, 5, some [5, 0, 0, 0, 0]⟩ 256).sunk = [] ∧
    (overflow accepting ⟨4, 5, some [5, 0, 0, 0, 0]⟩ 256).stores = [] ∧
    (overflow accepting ⟨4, 5, some [5, 0, 0, 0, 0]⟩ 256).state =
      ⟨4, 5, some [5, 0, 0, 0, 0]⟩ :=
  (overflow_out_of_bounds_iff accepting ⟨4, 5, some [5, 0, 0, 0, 0]⟩ 256).2
    ((overflow_out_of_bounds_iff accepting ⟨4, 5, some [5, 0, 0, 0, 0]⟩ 256).1.2
      (Or.inr (by decide)))

/-- C5. For every state and valid byte such that feeding the byte makes `bytes_read` equal
`len` and the sink call on the completed view succeeds, `overflow` returns the byte, the
sink is called once with the view `(data, len)`, and the state afterwards is exactly the
empty state: `bytes_read = 0`, `len = 0` and `data` null. -/
theorem completion_resets (sink : View → Bool) (s : bson_output_streambuf) (ch : Int)
    (hch : valid_byte ch) (hdone : next_bytes_read s = next_len s ch)
    (hok : sink ⟨next_data s ch, next_len s ch⟩ = true) :
    (overflow sink s ch).state.bytes_read = 0 ∧ (overflow sink s ch).state.len = 0 ∧
    (overflow sink s ch).state.data = none ∧ (overflow sink s ch).state = empty ∧
    (overflow sink s ch).outcome = .returned ch ∧
    (overflow sink s ch).sunk = [⟨next_data s ch, next_len s ch⟩] := by
  rw [overflow_valid sink s ch hch, insert_completing sink s ch hdone hok]
  exact ⟨rfl, rfl, rfl, rfl, rfl, rfl⟩

theorem completion_resets_witness :
    (overflow accepting ⟨22, 23, some (List.replicate 23 0)⟩ 0).state = empty :=
  (completion_resets accepting ⟨22, 23, some (List.replicate 23 0)⟩ 0
    (by decide) (by decide) (by decide)).2.2.2.1

/-- After a sequence whose last call hands a view to a sink that never fails, the stream
buffer is in the empty state, and the steps for any following sequence are those of a
fresh stream buffer. -/
theorem feed_after_completion (s1 : List Int) (o : Step)
    (hlast : (feed accepting empty s1).getLast? = some o) (hdone : o.sunk ≠ []) :
    run accepting empty s1 = empty ∧
    (∀ s2 : List Int,
      (feed accepting empty (s1 ++ s2)).take s1.length = feed accepting empty s1 ∧
      (feed accepting empty (s1 ++ s2)).drop s1.length = feed accepting empty s2) := by
  have hmem : o ∈ feed accepting empty s1 := List.mem_of_getLast?_eq_some hlast
  have hrun : run accepting empty s1 = empty := by
    rw [run_eq_of_getLast accepting s1 empty o hlast]
    exact feed_sunk_state s1 empty o hmem hdone
  have hlen : (feed accepting empty s1).length = s1.length := feed_length accepting s1 empty
  refine ⟨hrun, fun s2 => ⟨?_, ?_⟩⟩
  · rw [feed_append accepting s1 s2 empty, ← hlen, List.take_left]
  · rw [feed_append accepting s1 s2 empty, hrun, ← hlen, List.drop_left]

set_option maxRecDepth 1000000 in
/-- C6 (evaluation of the code at a failing input). The 5-byte document `05 00 00 00 07`,
fed from the empty state with a sink that never fails, completes on its 5th byte and is
delivered. The well-formed document of declared length 257 that follows it (`01 01 00 00`
and 253 bytes, all valid) is not delivered to the sink: on its 1st and on its 2nd byte
`bytes_read == len` (1 == 1) hands the sink a null view of length 1, and no later byte of
it reaches the sink. -/
theorem well_formed_document_after_reset_misframed :
    ((feed accepting empty [5, 0, 0, 0, 7]).map Step.sunk =
      [[], [], [], [], [⟨some [5, 0, 0, 0, 7], 5⟩]]) ∧
    run accepting empty [5, 0, 0, 0, 7] = empty ∧
    doc257.length = 257 ∧ doc257.take 4 = le32 257 ∧ (∀ ch ∈ doc257, valid_byte ch) ∧
    ((feed accepting empty ([5, 0, 0, 0, 7] ++ doc257)).drop 5).map Step.sunk =
      [⟨none, 1⟩] :: [⟨none, 1⟩] :: List.replicate 255 [] := by
  decide

/-- C7 (counterexample). The four bytes `00 00 00 80` fed from the empty state assemble the
length `2 ^ 31`, and `overflow` throws the oversized-document error on the 4th byte. The
state left behind is `bytes_read = 4, len = 2 ^ 31`, not the empty state, and the next byte
is counted as the 5th byte of the same frame (stored through the null `data`), whereas a
fresh stream buffer counts it as the 1st. -/
theorem oversize_error_does_not_reset :
    ((feed accepting empty [0, 0, 0, 128]).map Step.outcome =
      [.returned 0, .returned 0, .returned 0, .threw .too_large]) ∧
    run accepting empty [0, 0, 0, 128] = ⟨4, 2 ^ 31, none⟩ ∧
    run accepting empty [0, 0, 0, 128] ≠ empty ∧
    (overflow accepting (run accepting empty [0, 0, 0, 128]) 7).state.bytes_read = 5 ∧
    (overflow accepting (run accepting empty [0, 0, 0, 128]) 7).stores = [⟨4, none⟩] ∧
    (overflow accepting empty 7).state.bytes_read = 1 := by
  decide

/-- C7 (amended). Whenever `overflow` fails with the oversized-document error, the state is
left as it was at the `throw`: `bytes_read = 4`, `len` the assembled length, which exceeds
`BSON_MAX_SIZE`, and `data` untouched (no allocation, no store, no sink call). This is not
the empty state, and the next byte fed is counted as the 5th byte of the same frame. -/
theorem oversize_error_keeps_state (sink : View → Bool) (s : bson_output_streambuf)
    (ch : Int) (h : (overflow sink s ch).outcome = .threw .too_large) :
    (overflow sink s ch).state = ⟨4, next_len s ch, s.data⟩ ∧
    BSON_MAX_SIZE < next_len s ch ∧
    (overflow sink s ch).sunk = [] ∧ (overflow sink s ch).stores = [] ∧
    (overflow sink s ch).state ≠ empty ∧
    next_bytes_read (overflow sink s ch).state = 5 := by
  have key : overflow sink s ch = ⟨⟨4, next_len s ch, s.data⟩, .threw .too_large, [], []⟩ ∧
      BSON_MAX_SIZE < next_len s ch := by
    unfold overflow at h ⊢
    split_ifs at h ⊢
    · simp at h
    · unfold insert at h ⊢
      simp only [] at h ⊢
      split_ifs at h ⊢ with h1
      · exact ⟨by rw [h1.1], h1.2⟩
      all_goals simp at h
  rw [key.1]
  refine ⟨rfl, key.2, rfl, rfl, ?_, rfl⟩
  intro he
  have h0 : (4 : Nat) = 0 := congrArg bson_output_streambuf.bytes_read he
  omega

theorem oversize_error_keeps_state_witness :
    (overflow accepting ⟨3, 0, none⟩ 128).state = ⟨4, next_len ⟨3, 0, none⟩ 128, none⟩ ∧
    (overflow accepting ⟨3, 0, none⟩ 128).state ≠ empty :=
  have h := oversize_error_keeps_state accepting ⟨3, 0, none⟩ 128 (by decide)
  ⟨h.1, h.2.2.2.2.1⟩

/-- C8 (evaluation of the code at a failing input). Feeding the single valid byte 1 from
the empty state invokes the sink: only 1 byte of the frame has been consumed, no buffer has
been allocated (`data` is null, no store was made), and the view handed to the sink has a
null pointer and length 1. -/
theorem sink_receives_null_view_on_byte_1 :
    feed accepting empty [1] = [⟨empty, .returned 1, [⟨none, 1⟩], []⟩] ∧
    next_bytes_read empty = 1 ∧ next_data empty 1 = none := by
  decide

/-- C9 (evaluation of the code at a failing input). When the sink fails on the 5-byte
document `05 00 00 00 07`, the state left is `bytes_read = 5`, `len = 5` with the 5-byte
buffer, a state with `len ≥ 4` and `bytes_read ≥ len`. Feeding it the valid byte 9 stores
the byte at `data[5]` (line 69), outside the 5-byte array, before the test of the rejecting
branch is reached; so does every later byte, one index further each time. None of these
calls is free of undefined behaviour, whatever the sink does. -/
theorem excess_byte_stored_out_of_bounds :
    run (fun _ => false) empty [5, 0, 0, 0, 7] = ⟨5, 5, some [5, 0, 0, 0, 7]⟩ ∧
    (overflow accepting ⟨5, 5, some [5, 0, 0, 0, 7]⟩ 9).stores = [⟨5, some 5⟩] ∧
    (overflow accepting ⟨5, 5, some [5, 0, 0, 0, 7]⟩ 9).defined = false ∧
    ((feed (fun _ => false) empty [5, 0, 0, 0, 7, 9, 8, 6]).map Step.stores).drop 5 =
      [[⟨5, some 5⟩], [⟨6, some 5⟩], [⟨7, some 5⟩]] ∧
    ((feed (fun _ => false) empty [5, 0, 0, 0, 7, 9, 8, 6]).map Step.defined).drop 5 =
      [false, false, false] := by
  decide

/-! ## Further lemmas on whole runs -/

theorem feed_take (sink : View → Bool) (s : bson_output_streambuf) (a b : List Int) :
    (feed sink s (a ++ b)).take a.length = feed sink s a := by
  rw [feed_append, ← feed_length sink a s, List.take_left]

theorem valid_byte_ne_EOF (ch : Int) (h : valid_byte ch) : ch ≠ EOF := by
  rcases h with ⟨h0, _⟩
  unfold EOF
  omega

theorem toNat_cast_of_valid (d : List Int) (hv : ∀ ch ∈ d, valid_byte ch) :
    (d.map Int.toNat).map Int.ofNat = d := by
  induction d with
  | nil => rfl
  | cons ch rest ih =>
    have h0 : 0 ≤ ch := (hv ch (List.mem_cons_self _ _)).1
    simp only [List.map_cons, Int.ofNat_eq_coe, Int.toNat_of_nonneg h0]
    rw [← ih (fun c hc => hv c (List.mem_cons_of_mem _ hc))]
    simp

theorem early_completion (N : Nat) (body : List Int)
    (h : N % 2 ^ 8 = 1 ∨ N % 2 ^ 16 = 2 ∨ N % 2 ^ 24 = 3) :
    ∃ k, k < 3 ∧ ((feed accepting empty (le32 N ++ body)).map Step.sunk).take (k + 1) =
      List.replicate k [] ++ [[⟨none, k + 1⟩]] := by
  rcases h with h | h | h
  · refine ⟨0, by decide, ?_⟩
    have hb : N % 256 = 1 := h
    have hsplit : le32 N ++ body = [1] ++ (List.drop 1 (le32 N) ++ body) := by
      simp only [le32, hb]
      rfl
    rw [hsplit, ← List.map_take]
    rw [show (0 + 1 = ([1] : List Int).length) from rfl, feed_take]
    decide
  · refine ⟨1, by decide, ?_⟩
    have hb0 : N % 256 = 2 := by omega
    have hb1 : N / 2 ^ 8 % 256 = 0 := by omega
    have hsplit : le32 N ++ body = [2, 0] ++ (List.drop 2 (le32 N) ++ body) := by
      simp only [le32, hb0, hb1]
      rfl
    rw [hsplit, ← List.map_take]
    rw [show (1 + 1 = ([2, 0] : List Int).length) from rfl, feed_take]
    decide
  · refine ⟨2, by decide, ?_⟩
    have hb0 : N % 256 = 3 := by omega
    have hb1 : N / 2 ^ 8 % 256 = 0 := by omega
    have hb2 : N / 2 ^ 16 % 256 = 0 := by omega
    have hsplit : le32 N ++ body = [3, 0, 0] ++ (List.drop 3 (le32 N) ++ body) := by
      simp only [le32, hb0, hb1, hb2]
      rfl
    rw [hsplit, ← List.map_take]
    rw [show (2 + 1 = ([3, 0, 0] : List Int).length) from rfl, feed_take]
    decide

/-- C12. For every `N` with `5 ≤ N ≤ BSON_MAX_SIZE` and every sequence `d` of `N` valid
bytes whose first four bytes are the little-endian encoding of `N`, fed from the empty state
with a sink that never fails: if `N mod 2^8 ≠ 1`, `N mod 2^16 ≠ 2` and `N mod 2^24 ≠ 3`,
every one of the `N` calls returns the fed byte (never `EOF`), the sink is invoked exactly
once, on the `N`-th byte, with the view `(data, N)` whose buffer holds exactly the `N`
bytes of `d`, and the state ends empty; if one of the three congruences holds, the
completion branch fires early, on byte 1, 2 or 3, with a null view. -/
theorem framing_exact_condition (N : Nat) (d : List Int) (h5 : 5 ≤ N)
    (hmax : N ≤ BSON_MAX_SIZE) (hlen : d.length = N) (hpre : d.take 4 = le32 N)
    (hv : ∀ ch ∈ d, valid_byte ch) :
    (N % 2 ^ 8 ≠ 1 → N % 2 ^ 16 ≠ 2 → N % 2 ^ 24 ≠ 3 →
      (feed accepting empty d).map Step.outcome = d.map Outcome.returned ∧
      (∀ ch ∈ d, ch ≠ EOF) ∧
      (feed accepting empty d).map Step.sunk =
        List.replicate (N - 1) [] ++ [[⟨some (d.map Int.toNat), N⟩]] ∧
      (d.map Int.toNat).length = N ∧ (d.map Int.toNat).map Int.ofNat = d ∧
      run accepting empty d = empty) ∧
    ((N % 2 ^ 8 = 1 ∨ N % 2 ^ 16 = 2 ∨ N % 2 ^ 24 = 3) →
      ∃ k, k < 3 ∧ ((feed accepting empty d).map Step.sunk).take (k + 1) =
        List.replicate k [] ++ [[⟨none, k + 1⟩]]) := by
  have hd : d = le32 N ++ d.drop 4 := by
    rw [← hpre, List.take_append_drop]
  have hbody : (d.drop 4).length = N - 4 := by
    rw [List.length_drop, hlen]
  have hvb : ∀ ch ∈ d.drop 4, valid_byte ch := fun ch hch => hv ch (List.mem_of_mem_drop hch)
  refine ⟨?_, ?_⟩
  · intro h1 h2 h3
    obtain ⟨f1, f2, _, f4⟩ := feed_document N (d.drop 4) h5 hmax h1 h2 h3 hbody hvb
    rw [← hd] at f1 f2 f4
    exact ⟨f1, fun ch hch => valid_byte_ne_EOF ch (hv ch hch), f2,
      by rw [List.length_map, hlen], toNat_cast_of_valid d hv, f4⟩
  · intro h
    rw [hd]
    exact early_completion N (d.drop 4) h

theorem framing_exact_condition_witness :
    (feed accepting empty [5, 0, 0, 0, 7]).map Step.sunk =
      List.replicate (5 - 1) [] ++ [[⟨some (([5, 0, 0, 0, 7] : List Int).map Int.toNat), 5⟩]] ∧
    run accepting empty [5, 0, 0, 0, 7] = empty :=
  have h := (framing_exact_condition 5 [5, 0, 0, 0, 7] (by decide) (by decide) (by decide)
    (by decide) (by decide)).1 (by decide) (by decide) (by decide)
  ⟨h.2.2.1, h.2.2.2.2.2⟩

/-- C13 (evaluation of the code at a failing input). The valid bytes `00 00 00 00 07` fed
from the empty state with a sink that never fails raise no error (every call returns the fed
byte). On the 4th byte `len` is 0, `new uint8_t[0]` allocates no byte and
`std::memcpy(data, &len, 4)` stores at indices 0..3 of that empty array; the 5th byte is
stored at `data[4]`. Every one of these five stores lies outside the allocated size 0. -/
theorem buffer_writes_out_of_bounds_at_zero_length :
    (feed accepting empty [0, 0, 0, 0, 7]).map Step.outcome =
      [.returned 0, .returned 0, .returned 0, .returned 0, .returned 7] ∧
    (feed accepting empty [0, 0, 0, 0, 7]).map Step.stores =
      [[], [], [], [⟨0, some 0⟩, ⟨1, some 0⟩, ⟨2, some 0⟩, ⟨3, some 0⟩], [⟨4, some 0⟩]] ∧
    (∀ o ∈ feed accepting empty [0, 0, 0, 0, 7], ∀ w ∈ o.stores, w.in_bounds = false) := by
  decide

theorem run_cons (sink : View → Bool) (s : bson_output_streambuf) (ch : Int)
    (rest : List Int) : run sink s (ch :: rest) = run sink (overflow sink s ch).state rest :=
  rfl

theorem feed_cons (sink : View → Bool) (s : bson_output_streambuf) (ch : Int)
    (rest : List Int) :
    feed sink s (ch :: rest) = overflow sink s ch :: feed sink (overflow sink s ch).state rest :=
  rfl

/-- C15 (evaluation of the code at a failing input). The bytes `00 00 00 00` followed by
the valid bytes `05 00 00 00 07`, fed from the empty state: the first three calls are free
of undefined behaviour and leave `bytes_read = 3`, `len = 0` with no buffer. The 4th call
allocates an array of 0 bytes and copies 4 bytes into it (line 65), and each of the five
following calls stores its byte at `data[bytes_read - 1]` (line 69), all outside that
array: from the 4th byte on no call is free of undefined behaviour, so the program has no
defined return value, sink behaviour or state for any byte that follows the prefix. -/
theorem zero_length_frame_undefined_from_byte_4 :
    run accepting empty [0, 0, 0] = ⟨3, 0, none⟩ ∧
    (feed accepting empty [0, 0, 0, 0, 5, 0, 0, 0, 7]).map Step.defined =
      [true, true, true, false, false, false, false, false, false] ∧
    ((feed accepting empty [0, 0, 0, 0, 5, 0, 0, 0, 7]).map Step.stores).drop 4 =
      [[⟨4, some 0⟩], [⟨5, some 0⟩], [⟨6, some 0⟩], [⟨7, some 0⟩], [⟨8, some 0⟩]] ∧
    (feed (fun _ => false) empty [0, 0, 0, 0, 5, 0, 0, 0, 7]).map Step.defined =
      [true, true, true, false, false, false, false, false, false] := by
  decide

theorem overflow_quiet (sink : View → Bool) (s : bson_output_streambuf) (ch : Int)
    (hch : valid_byte ch) (hq : (overflow sink s ch).sunk = []) :
    (overflow sink s ch).state.bytes_read = next_bytes_read s ∧
    (overflow sink s ch).state.len = next_len s ch := by
  rw [overflow_valid sink s ch hch] at hq ⊢
  unfold insert at hq ⊢
  simp only [] at hq ⊢
  split_ifs at hq ⊢ <;> exact ⟨rfl, rfl⟩

theorem insert_too_large_iff (sink : View → Bool) (s : bson_output_streambuf) (ch : Int) :
    (insert sink s ch).outcome = .threw .too_large ↔
      (next_bytes_read s = 4 ∧ next_len s ch > BSON_MAX_SIZE) := by
  unfold insert
  simp only []
  split_ifs with h1 <;> simp [h1]

theorem next_len_assemble (s : bson_output_streambuf) (k b : Nat) (hk : s.bytes_read = k)
    (hk4 : k < 4) (ha : s.len < 2 ^ (8 * k)) (hb : b < 256) :
    next_bytes_read s = k + 1 ∧ next_len s (b : Int) = s.len + b * 2 ^ (8 * k) := by
  have hbr : next_bytes_read s = k + 1 := by
    rw [next_bytes_read_of_lt s (by omega), hk]
  refine ⟨hbr, ?_⟩
  unfold next_len
  rw [hbr, if_pos (by omega)]
  have hsc : shift_count (k + 1) = 8 * k := by
    unfold shift_count
    omega
  rw [hsc, lor_shifted _ _ _ ha hb (by omega)]

/-- C16. For all valid bytes `b0, b1, b2, b3` fed from the empty state such that no
completion occurs on the first three bytes (none of the three calls hands a view to the
sink), the 4th call has `bytes_read = 4` and the value of `len` it compares against
`BSON_MAX_SIZE` is `b0 + 2^8 * b1 + 2^16 * b2 + 2^24 * b3`, a value below `2^32`, also when
`b3 ≥ 128`; the call throws the oversized-document error exactly when that value exceeds
`BSON_MAX_SIZE`. -/
theorem length_assembled_little_endian (sink : View → Bool) (b0 b1 b2 b3 : Int)
    (h0 : valid_byte b0) (h1 : valid_byte b1) (h2 : valid_byte b2) (h3 : valid_byte b3)
    (hq : ∀ o ∈ feed sink empty [b0, b1, b2], o.sunk = []) :
    next_bytes_read (run sink empty [b0, b1, b2]) = 4 ∧
    ((next_len (run sink empty [b0, b1, b2]) b3 : Nat) : Int) =
      b0 + 2 ^ 8 * b1 + 2 ^ 16 * b2 + 2 ^ 24 * b3 ∧
    next_len (run sink empty [b0, b1, b2]) b3 < 2 ^ 32 ∧
    ((overflow sink (run sink empty [b0, b1, b2]) b3).outcome = .threw .too_large ↔
      b0 + 2 ^ 8 * b1 + 2 ^ 16 * b2 + 2 ^ 24 * b3 > (BSON_MAX_SIZE : Int)) := by
  obtain ⟨n0, rfl⟩ := Int.eq_ofNat_of_zero_le h0.1
  obtain ⟨n1, rfl⟩ := Int.eq_ofNat_of_zero_le h1.1
  obtain ⟨n2, rfl⟩ := Int.eq_ofNat_of_zero_le h2.1
  obtain ⟨n3, rfl⟩ := Int.eq_ofNat_of_zero_le h3.1
  have hn0 : n0 < 256 := by have := h0.2; omega
  have hn1 : n1 < 256 := by have := h1.2; omega
  have hn2 : n2 < 256 := by have := h2.2; omega
  have hn3 : n3 < 256 := by have := h3.2; omega
  -- the three quiet steps
  have hmem : feed sink empty [(n0 : Int), n1, n2] =
      [overflow sink empty n0, overflow sink (overflow sink empty n0).state n1,
        overflow sink (overflow sink (overflow sink empty n0).state n1).state n2] := by
    rw [feed_cons, feed_cons, feed_cons]
    rfl
  rw [hmem] at hq
  have q1 : (overflow sink empty n0).sunk = [] := hq _ (List.mem_cons_self _ _)
  have q2 : (overflow sink (overflow sink empty n0).state n1).sunk = [] :=
    hq _ (List.mem_cons_of_mem _ (List.mem_cons_self _ _))
  have q3 : (overflow sink (overflow sink (overflow sink empty n0).state n1).state n2).sunk
      = [] :=
    hq _ (List.mem_cons_of_mem _ (List.mem_cons_of_mem _ (List.mem_cons_self _ _)))
  obtain ⟨a1, l1⟩ := overflow_quiet sink empty n0 h0 q1
  obtain ⟨a2, l2⟩ := overflow_quiet sink _ n1 h1 q2
  obtain ⟨a3, l3⟩ := overflow_quiet sink _ n2 h2 q3
  obtain ⟨c1, d1⟩ := next_len_assemble empty 0 n0 rfl (by decide) (by decide) hn0
  rw [c1] at a1
  rw [d1] at l1
  have e1 : (overflow sink empty n0).state.len = n0 := by
    rw [l1]
    show 0 + n0 * 2 ^ (8 * 0) = n0
    omega
  obtain ⟨c2, d2⟩ := next_len_assemble (overflow sink empty n0).state 1 n1 a1 (by decide)
    (by rw [e1]; omega) hn1
  rw [c2] at a2
  rw [d2, e1] at l2
  obtain ⟨c3, d3⟩ := next_len_assemble
    (overflow sink (overflow sink empty n0).state n1).state 2 n2 a2 (by decide)
    (by rw [l2]; omega) hn2
  rw [c3] at a3
  rw [d3, l2] at l3
  have hrun : run sink empty [(n0 : Int), n1, n2] =
      (overflow sink (overflow sink (overflow sink empty n0).state n1).state n2).state := by
    rw [run_cons, run_cons, run_cons]
    rfl
  obtain ⟨c4, d4⟩ := next_len_assemble (run sink empty [(n0 : Int), n1, n2]) 3 n3
    (by rw [hrun]; exact a3) (by decide) (by rw [hrun, l3]; omega) hn3
  rw [hrun] at d4 c4 ⊢
  rw [l3] at d4
  have hval : next_len (overflow sink (overflow sink (overflow sink empty n0).state n1).state
      n2).state n3 = n0 + 2 ^ 8 * n1 + 2 ^ 16 * n2 + 2 ^ 24 * n3 := by
    rw [d4]
    omega
  refine ⟨c4, ?_, ?_, ?_⟩
  · rw [hval]
    push_cast
    rfl
  · rw [hval]
    omega
  · rw [overflow_valid sink _ _ h3, insert_too_large_iff, hval, c4]
    simp only [BSON_MAX_SIZE, true_and]
    omega

theorem length_assembled_little_endian_witness :
    ((next_len (run accepting empty [0, 1, 2]) 255 : Nat) : Int) =
      0 + 2 ^ 8 * 1 + 2 ^ 16 * 2 + 2 ^ 24 * 255 ∧
    next_len (run accepting empty [0, 1, 2]) 255 < 2 ^ 32 :=
  have h := length_assembled_little_endian accepting 0 1 2 255 (by decide) (by decide)
    (by decide) (by decide) (by decide)
  ⟨h.2.1, h.2.2.1⟩

end bson_mapper

/-!
# Part 4: theorems about the mapper
-/

namespace mongo_odm

theorem lookup_to_document {T : Type} (r : T) (fs : List (Field T)) :
    ∀ d : Document, (fs.map Field.name).Nodup → to_document fs r = .ok d →
      ∀ f ∈ fs, lookup d f.name = f.get r := by
  induction fs with
  | nil => intro d _ _ f hf; simp at hf
  | cons g gs ih =>
    intro d hnd hd f hf
    simp only [List.map_cons, List.nodup_cons] at hnd
    simp only [to_document] at hd
    cases hg : g.get r with
    | none => simp [hg] at hd
    | some v =>
      cases hrest : to_document gs r with
      | error e => simp [hg, hrest] at hd
      | ok d1 =>
        simp only [hg, hrest, Except.ok.injEq] at hd
        subst hd
        rcases List.mem_cons.mp hf with hfg | hfgs
        · subst hfg
          simp [lookup, hg]
        · have hne : g.name ≠ f.name := by
            intro he
            exact hnd.1 (he ▸ List.mem_map_of_mem Field.name hfgs)
          simp only [lookup, if_neg hne]
          exact ih d1 hnd.2 hrest f hfgs

theorem to_document_ok {T : Type} (r : T) (fs : List (Field T)) :
    (∀ f ∈ fs, ∃ v, f.get r = some v) → ∃ d, to_document fs r = .ok d := by
  induction fs with
  | nil => intro _; exact ⟨[], rfl⟩
  | cons g gs ih =>
    intro h
    obtain ⟨v, hv⟩ := h g (List.mem_cons_self _ _)
    obtain ⟨d, hd⟩ := ih (fun f hf => h f (List.mem_cons_of_mem _ hf))
    exact ⟨(g.name, v) :: d, by simp [to_document, hv, hd]⟩

theorem to_document_get {T : Type} (r : T) (fs : List (Field T)) :
    ∀ d : Document, to_document fs r = .ok d →
      d.map Prod.fst = fs.map Field.name ∧ ∀ f ∈ fs, ∃ v, f.get r = some v := by
  induction fs with
  | nil =>
    intro d hd
    simp only [to_document, Except.ok.injEq] at hd
    subst hd
    exact ⟨rfl, fun f hf => by simp at hf⟩
  | cons g gs ih =>
    intro d hd
    simp only [to_document] at hd
    cases hg : g.get r with
    | none => simp [hg] at hd
    | some v =>
      cases hrest : to_document gs r with
      | error e => simp [hg, hrest] at hd
      | ok d1 =>
        simp only [hg, hrest, Except.ok.injEq] at hd
        subst hd
        obtain ⟨hk, hv⟩ := ih d1 hrest
        refine ⟨by simp [hk], ?_⟩
        intro f hf
        rcases List.mem_cons.mp hf with hfg | hfgs
        · subst hfg
          exact ⟨v, hg⟩
        · exact hv f hfgs

theorem to_obj_ref_reads {T : Type} (all : List (Field T)) (hl : Lawful all) (d : Document)
    (fs : List (Field T)) :
    ∀ out r1 : T, (∀ f ∈ fs, f ∈ all) → (fs.map Field.name).Nodup →
      to_obj_ref fs d out = .ok r1 →
      (∀ f ∈ fs, ∀ v, lookup d f.name = some v → f.get r1 = some v) ∧
      (∀ f ∈ fs, lookup d f.name = none → f.get r1 = f.get out) ∧
      (∀ g ∈ all, g.name ∉ fs.map Field.name → g.get r1 = g.get out) := by
  induction fs with
  | nil =>
    intro out r1 _ _ h
    simp only [to_obj_ref, Except.ok.injEq] at h
    subst h
    exact ⟨fun f hf => by simp at hf, fun f hf => by simp at hf, fun _ _ _ => rfl⟩
  | cons f fs ih =>
    intro out r1 hsub hnd h
    simp only [List.map_cons, List.nodup_cons] at hnd
    have hfall : f ∈ all := hsub f (List.mem_cons_self _ _)
    have hsub1 : ∀ g ∈ fs, g ∈ all := fun g hg => hsub g (List.mem_cons_of_mem _ hg)
    simp only [to_obj_ref] at h
    cases hlook : lookup d f.name with
    | none =>
      simp only [hlook] at h
      obtain ⟨h1, h2, h3⟩ := ih out r1 hsub1 hnd.2 h
      refine ⟨?_, ?_, ?_⟩
      · intro g hg v hv
        rcases List.mem_cons.mp hg with hgf | hgfs
        · subst hgf
          rw [hlook] at hv
          exact absurd hv (by simp)
        · exact h1 g hgfs v hv
      · intro g hg hv
        rcases List.mem_cons.mp hg with hgf | hgfs
        · subst hgf
          exact h3 g hfall hnd.1
        · exact h2 g hgfs hv
      · intro g hg hn
        simp only [List.map_cons, List.mem_cons, not_or] at hn
        exact h3 g hg hn.2
    | some v =>
      simp only [hlook] at h
      cases hset : f.set out v with
      | none => simp [hset] at h
      | some out1 =>
        simp only [hset] at h
        obtain ⟨h1, h2, h3⟩ := ih out1 r1 hsub1 hnd.2 h
        have hfr1 : f.get r1 = some v := by
          rw [h3 f hfall hnd.1]
          exact hl.get_set f hfall out out1 v hset
        refine ⟨?_, ?_, ?_⟩
        · intro g hg w hw
          rcases List.mem_cons.mp hg with hgf | hgfs
          · subst hgf
            rw [hlook] at hw
            cases hw
            exact hfr1
          · exact h1 g hgfs w hw
        · intro g hg hv
          rcases List.mem_cons.mp hg with hgf | hgfs
          · subst hgf
            rw [hlook] at hv
            exact absurd hv (by simp)
          · have hne : f.name ≠ g.name := by
              intro he
              exact hnd.1 (he ▸ List.mem_map_of_mem Field.name hgfs)
            rw [h2 g hgfs hv]
            exact hl.get_set_other f hfall g (hsub1 g hgfs) hne out out1 v hset
        · intro g hg hn
          simp only [List.map_cons, List.mem_cons, not_or] at hn
          rw [h3 g hg hn.2]
          exact hl.get_set_other f hfall g hg (fun he => hn.1 he.symm) out out1 v hset

theorem to_obj_ref_ok {T : Type} (all : List (Field T)) (hl : Lawful all) (d : Document)
    (fs : List (Field T)) :
    ∀ out : T, (∀ f ∈ fs, f ∈ all) →
      (∀ f ∈ fs, ∀ v, lookup d f.name = some v → ∃ r0 : T, f.get r0 = some v) →
      ∃ r1, to_obj_ref fs d out = .ok r1 := by
  induction fs with
  | nil => intro out _ _; exact ⟨out, rfl⟩
  | cons f fs ih =>
    intro out hsub hconv
    have hsub1 : ∀ g ∈ fs, g ∈ all := fun g hg => hsub g (List.mem_cons_of_mem _ hg)
    have hconv1 : ∀ g ∈ fs, ∀ v, lookup d g.name = some v → ∃ r0 : T, g.get r0 = some v :=
      fun g hg => hconv g (List.mem_cons_of_mem _ hg)
    cases hlook : lookup d f.name with
    | none =>
      obtain ⟨r1, hr1⟩ := ih out hsub1 hconv1
      exact ⟨r1, by simp only [to_obj_ref, hlook, hr1]⟩
    | some v =>
      obtain ⟨r0, hr0⟩ := hconv f (List.mem_cons_self _ _) v hlook
      obtain ⟨out1, hout1⟩ := hl.set_of_get f (hsub f (List.mem_cons_self _ _)) r0 out v hr0
      obtain ⟨r1, hr1⟩ := ih out1 hsub1 hconv1
      exact ⟨r1, by simp only [to_obj_ref, hlook, hout1, hr1]⟩

theorem to_obj_ref_to_document {T : Type} (fields : List (Field T)) (hl : Lawful fields)
    (r out : T) (d : Document) (hd : to_document fields r = .ok d) :
    to_obj_ref fields d out = .ok r := by
  have hlook := lookup_to_document r fields d hl.names_nodup hd
  obtain ⟨r1, hr1⟩ := to_obj_ref_ok fields hl d fields out (fun _ h => h)
    (fun f hf v hv => ⟨r, by rw [← hlook f hf]; exact hv⟩)
  obtain ⟨h1, h2, _⟩ := to_obj_ref_reads fields hl d fields out r1 (fun _ h => h)
    hl.names_nodup hr1
  have heq : r1 = r := by
    apply hl.ext
    intro f hf
    obtain ⟨v, hv⟩ := (to_document_get r fields d hd).2 f hf
    rw [hv]
    exact h1 f hf v (by rw [hlook f hf]; exact hv)
  rw [hr1, heq]

theorem Foo.fields_lawful : Lawful Foo.fields where
  names_nodup := by decide
  set_of_get := by
    intro f hf r out v hv
    simp only [Foo.fields, List.mem_cons, List.mem_singleton, List.not_mem_nil, or_false] at hf
    rcases hf with rfl | rfl | rfl <;>
      · simp only [Option.some.injEq] at hv
        subst hv
        exact ⟨_, rfl⟩
  get_set := by
    intro f hf out out1 v hv
    simp only [Foo.fields, List.mem_cons, List.mem_singleton, List.not_mem_nil, or_false] at hf
    rcases hf with rfl | rfl | rfl <;>
      · cases v <;> simp [as_int] at hv
        subst hv
        rfl
  get_set_other := by
    intro f hf g hg hne out out1 v hv
    simp only [Foo.fields, List.mem_cons, List.mem_singleton, List.not_mem_nil, or_false]
      at hf hg
    rcases hf with rfl | rfl | rfl <;> rcases hg with rfl | rfl | rfl <;>
      first
      | exact absurd rfl hne
      | (cases v <;> simp [as_int] at hv
         subst hv
         rfl)
  ext := by
    intro x y h
    have ha := h _ (List.mem_cons_self _ _)
    have hb := h _ (List.mem_cons_of_mem _ (List.mem_cons_self _ _))
    have hc := h _ (List.mem_cons_of_mem _ (List.mem_cons_of_mem _ (List.mem_cons_self _ _)))
    simp only [Option.some.injEq, Value.int32.injEq] at ha hb hc
    cases x
    cases y
    simp only [Foo.mk.injEq]
    exact ⟨ha, hb, hc⟩

/-! ## Claims about the mapper -/

/-- C10. For every record type whose reflection is lawful and every record `r` all of whose
fields are representable, `to_document(r)` succeeds with a document `d` that holds, in
declaration order, each field under its name with its value, and `to_obj<T>(d)` (by value)
as well as `to_obj(d, out)` (by reference, on any record `out`) give back `r`; moreover,
whenever `to_obj` succeeds on any document, every field whose key is present holds the
value stored under that key. -/
theorem to_obj_to_document_round_trip {T : Type} [Inhabited T] (fields : List (Field T))
    (hl : Lawful fields) (r : T) (hrep : ∀ f ∈ fields, (f.get r).isSome = true) :
    ∃ d, to_document fields r = .ok d ∧
      to_obj fields d = .ok r ∧
      (∀ out : T, to_obj_ref fields d out = .ok r) ∧
      d.map Prod.fst = fields.map Field.name ∧
      (∀ f ∈ fields, lookup d f.name = f.get r) ∧
      (∀ (d1 : Document) (out r1 : T), to_obj_ref fields d1 out = .ok r1 →
        ∀ f ∈ fields, ∀ v, lookup d1 f.name = some v → f.get r1 = some v) := by
  obtain ⟨d, hd⟩ := to_document_ok r fields
    (fun f hf => Option.isSome_iff_exists.mp (hrep f hf))
  refine ⟨d, hd, to_obj_ref_to_document fields hl r default d hd,
    fun out => to_obj_ref_to_document fields hl r out d hd,
    (to_document_get r fields d hd).1,
    lookup_to_document r fields d hl.names_nodup hd, ?_⟩
  intro d1 out r1 h1
  exact (to_obj_ref_reads fields hl d1 fields out r1 (fun _ h => h) hl.names_nodup h1).1

theorem to_obj_to_document_round_trip_witness :
    to_document Foo.fields obj = .ok doc ∧ to_obj Foo.fields doc = .ok obj ∧
    lookup doc "a" = some (.int32 obj.a) ∧ lookup doc "b" = some (.int32 obj.b) ∧
    lookup doc "c" = some (.int32 obj.c) := by
  obtain ⟨d, hd, hval, _, _, _, _⟩ :=
    to_obj_to_document_round_trip Foo.fields Foo.fields_lawful obj (by decide)
  have h0 : to_document Foo.fields obj = .ok doc := rfl
  have hdoc : d = doc := by
    rw [h0] at hd
    exact (Except.ok.inj hd).symm
  rw [hdoc] at hval
  exact ⟨h0, hval, rfl, rfl, rfl⟩

/-- C11. `to_optional_obj<T>` applied to an absent optional document returns an absent
optional record; applied to a present document `d` it returns a present record equal to
`to_obj<T>(d)` (and fails exactly when `to_obj<T>(d)` fails, with the same error). Hence the
result is absent only for an absent document, and a present result is always the record
`to_obj` reads from the document. -/
theorem to_optional_obj_maps_through_to_obj {T : Type} [Inhabited T]
    (fields : List (Field T)) :
    to_optional_obj fields none = .ok none ∧
    (∀ (d : Document) (r : T), to_obj fields d = .ok r →
      to_optional_obj fields (some d) = .ok (some r)) ∧
    (∀ (d : Document) (e : MapperError), to_obj fields d = .error e →
      to_optional_obj fields (some d) = .error e) ∧
    (∀ od : Option Document, to_optional_obj fields od = .ok none ↔ od = none) ∧
    (∀ (od : Option Document) (r : T), to_optional_obj fields od = .ok (some r) ↔
      ∃ d, od = some d ∧ to_obj fields d = .ok r) := by
  have hsome : ∀ d : Document, to_optional_obj fields (some d) =
      match to_obj fields d with
      | .error e => .error e
      | .ok r => .ok (some r) := fun _ => rfl
  refine ⟨rfl, ?_, ?_, ?_, ?_⟩
  · intro d r h
    rw [hsome, h]
  · intro d e h
    rw [hsome, h]
  · intro od
    cases od with
    | none => exact ⟨fun _ => rfl, fun _ => rfl⟩
    | some d =>
      rw [hsome]
      cases h : to_obj fields d <;> simp
  · intro od r
    cases od with
    | none =>
      constructor
      · intro h
        have h0 : to_optional_obj fields none = .ok none := rfl
        rw [h0] at h
        simp at h
      · rintro ⟨d, hd, _⟩
        simp at hd
    | some d =>
      rw [hsome]
      cases h : to_obj fields d with
      | error e => simp [h]
      | ok r1 => simp [h]

theorem to_optional_obj_maps_through_to_obj_witness :
    (to_optional_obj Foo.fields none : Except MapperError (Option Foo)) = .ok none ∧
    to_optional_obj Foo.fields (some doc) = .ok (some obj) :=
  ⟨(to_optional_obj_maps_through_to_obj Foo.fields).1,
    (to_optional_obj_maps_through_to_obj Foo.fields).2.1 doc obj rfl⟩

end mongo_odm
